import Mathlib

/-!
Verification of the podscript repository's multi-provider completion
abstraction and chunked-transcript streaming pipeline.

Go strings are modelled as `List Char`; Go slices as `List`; Go maps with
zero-value defaults as total functions; fallible Go code as `Except`/`Option`;
a Go panic (out-of-range slice index) as an explicit `panicked` outcome.
-/

set_option maxHeartbeats 1000000
set_option maxRecDepth 100000

/-- A Go string, modelled as its character sequence. -/
abbrev GoStr := List Char

/-- Models Go `unicode.IsSpace` on the characters that occur in Latin-1:
space, tab, newline, vertical tab, form feed, carriage return, NEL, NBSP.
(Go additionally accepts Unicode category-Z code points; no claim depends
on those.) -/
def isSpace (c : Char) : Bool :=
  c = ' ' || c = '\t' || c = '\n' || c = (Char.ofNat 11) || c = (Char.ofNat 12) ||
  c = '\r' || c = (Char.ofNat 0x85) || c = (Char.ofNat 0xA0)

/-- Models Go `strings.Fields`: the maximal runs of non-whitespace
characters of `s`, in order.  Splitting at every whitespace character and
discarding the empty pieces that arise between consecutive separators (and
at the ends) yields exactly those runs. -/
def fields (s : List Char) : List (List Char) :=
  (s.splitOnP isSpace).filter (fun w => w ≠ [])

/-- Models `countWords` from cmd/ytt/ytt.go: `len(strings.Fields(s))`. -/
def countWords (s : GoStr) : Nat := (fields s).length

/-- Each word rendered with a single leading space, concatenated.
`tailRender [w1, w2] = " w1 w2"`. -/
def tailRender : List GoStr → GoStr
  | [] => []
  | w :: ws => ' ' :: (w ++ tailRender ws)

/-- Words joined by single spaces: `joinWords [w1, w2] = "w1 w2"`. -/
def joinWords : List GoStr → GoStr
  | [] => []
  | w :: ws => w ++ tailRender ws

/-- Models `calcWordsFromTokens` from the transcriber:
`int(float64(tokens) * 0.75)`.  For every token limit appearing in the
`modelTokenLimits` tables (all divisible by 4) the float computation is
exact and equals `tokens * 3 / 4`. -/
def calcWordsFromTokens (tokens : Nat) : Nat := tokens * 3 / 4

/-- The loop body of `splitText`: walks the word list carrying the global
word index `i` (a space is written whenever `i > 0`), the current chunk
builder `cur`, the running word count `cnt`, and the accumulated chunks
`acc`; flushes whenever the count reaches `maxWords`, and flushes a
non-empty remainder at the end. -/
def splitTextLoop (maxWords : Nat) :
    List GoStr → Nat → GoStr → Nat → List GoStr → List GoStr
  | [], _, cur, _, acc => if cur ≠ [] then acc ++ [cur] else acc
  | w :: ws, i, cur, cnt, acc =>
    let cur1 := cur ++ (if i > 0 then [' '] else []) ++ w
    let cnt1 := cnt + 1
    if cnt1 ≥ maxWords then
      splitTextLoop maxWords ws (i + 1) [] 0 (acc ++ [cur1])
    else
      splitTextLoop maxWords ws (i + 1) cur1 cnt1 acc

/-- Models `splitText` from the YouTube transcriber, abstracted over the
word budget `maxWords` (the source computes it as
`calcWordsFromTokens(modelTokenLimits[yt.model])`). -/
def splitTextW (maxWords : Nat) (text : GoStr) : List GoStr :=
  splitTextLoop maxWords (fields text) 0 [] 0 []

/-- An LLM model identifier (Go type `LLMModel`, a string). -/
abbrev LLMModel := String

/-- An LLM provider identifier (Go type `LLMProvider`, a string). -/
abbrev LLMProvider := String

/-- The `modelTokenLimits` map of the Gemini-variant llms.go (lines 42-50):
missing keys yield the Go zero value 0. -/
def modelTokenLimits_v1 (m : LLMModel) : Nat :=
  if m = "gpt-4o" then 16384
  else if m = "gpt-4o-mini" then 16384
  else if m = "claude-3-5-sonnet-20241022" then 8192
  else if m = "claude-3-5-haiku-20241022" then 8192
  else if m = "llama-3.3-70b-versatile" then 32768
  else if m = "llama-3.1-8b-instant" then 8192
  else if m = "gemini-2.0-flash" then 32768
  else 0

/-- The keys of `modelTokenLimits` in the Gemini-variant llms.go. -/
def modelKeys_v1 : List LLMModel :=
  ["gpt-4o", "gpt-4o-mini", "claude-3-5-sonnet-20241022",
   "claude-3-5-haiku-20241022", "llama-3.3-70b-versatile",
   "llama-3.1-8b-instant", "gemini-2.0-flash"]

/-- The `modelTokenLimits` map of the Bedrock-variant llms.go (lines 455-464). -/
def modelTokenLimits_v2 (m : LLMModel) : Nat :=
  if m = "gpt-4o" then 16384
  else if m = "gpt-4o-mini" then 16384
  else if m = "claude-3-5-sonnet-20241022" then 8192
  else if m = "claude-3-5-haiku-20241022" then 8192
  else if m = "llama-3.3-70b-versatile" then 32768
  else if m = "llama-3.1-8b-instant" then 8192
  else if m = "anthropic.claude-3-5-sonnet-20241022-v2:0" then 4096
  else if m = "anthropic.claude-3-5-haiku-20241022-v1:0" then 4096
  else 0

/-- The keys of `modelTokenLimits` in the Bedrock-variant llms.go. -/
def modelKeys_v2 : List LLMModel :=
  ["gpt-4o", "gpt-4o-mini", "claude-3-5-sonnet-20241022",
   "claude-3-5-haiku-20241022", "llama-3.3-70b-versatile",
   "llama-3.1-8b-instant", "anthropic.claude-3-5-sonnet-20241022-v2:0",
   "anthropic.claude-3-5-haiku-20241022-v1:0"]

/-- `splitText` as called in the source: word budget looked up from the
token-limit table of the revision in scope. -/
def splitText (limits : LLMModel → Nat) (model : LLMModel) (text : GoStr) :
    List GoStr :=
  splitTextW (calcWordsFromTokens (limits model)) text

/-- Go error values as discriminated by this codebase: an `*openai.APIError`
with its HTTP status code, any other error with its message, or an error
produced by `fmt.Errorf("...: %w", inner)`. -/
inductive GoErr where
  | apiError (httpStatusCode : Nat) (msg : String)
  | other (msg : String)
  | wrap (msg : String) (inner : GoErr)
deriving DecidableEq

/-- `CompletionChunk` from llms.go: a piece of streamed response. -/
structure CompletionChunk where
  text : GoStr
  provider : String
  done : Bool
deriving DecidableEq

/-- `CompletionResponse` from llms.go. -/
structure CompletionResponse where
  text : GoStr
  provider : String
deriving DecidableEq

/-- `CompletionRequest` from llms.go. -/
structure CompletionRequest where
  systemPrompt : GoStr
  userPrompt : GoStr
  model : LLMModel
deriving DecidableEq

/-- The terminal chunk every adapter sends on graceful completion:
`CompletionChunk{Done: true}`, whose `Text` and `Provider` fields keep
their Go zero values. -/
def doneChunk : CompletionChunk := ⟨[], "", true⟩

/-- Result of a Go function returning `(T, error)`, with the additional
outcome that the Go code panics (e.g. an out-of-range slice index). -/
inductive GoResult (α : Type) where
  | ok (val : α)
  | err (e : GoErr)
  | panicked (msg : String)
deriving DecidableEq

/-! ### Streaming adapters (`CompleteStream`)

Each adapter is modelled as a function from the backend's decoded event
sequence (plus the stream's terminal error status, where the backend
iterator reports one) to the pair (contents of the chunk channel, contents
of the one-slot error channel). -/

/-- One streamed OpenAI event: the delta contents of its `Choices` list. -/
structure OpenAIStreamEvent where
  choices : List GoStr
deriving DecidableEq

/-- `OpenAIClient.CompleteStream` (llms.go): emit `Choices[0].Delta.Content`
for every event with a non-empty choice list; afterwards, a non-nil
`stream.Err()` goes to the error channel and suppresses the done chunk,
otherwise the done chunk is sent. -/
def OpenAIClient_CompleteStream (events : List OpenAIStreamEvent)
    (streamErr : Option GoErr) : List CompletionChunk × Option GoErr :=
  let emitted := events.filterMap (fun ev =>
    match ev.choices with
    | [] => none
    | d :: _ => some ⟨d, "openai", false⟩)
  match streamErr with
  | some e => (emitted, some e)
  | none => (emitted ++ [doneChunk], none)

/-- One streamed Anthropic event: `some t` when the event's delta matched
the `ContentBlockDeltaEventDelta` arm of the type switch with text `t`. -/
structure ClaudeStreamEvent where
  delta : Option GoStr
deriving DecidableEq

/-- `ClaudeClient.CompleteStream` (llms.go): emit the delta text of every
content-block-delta event whose text is non-empty; terminal error handling
as for OpenAI. -/
def ClaudeClient_CompleteStream (events : List ClaudeStreamEvent)
    (streamErr : Option GoErr) : List CompletionChunk × Option GoErr :=
  let emitted := events.filterMap (fun ev =>
    match ev.delta with
    | some t => if t ≠ [] then some (⟨t, "claude", false⟩ : CompletionChunk) else none
    | none => none)
  match streamErr with
  | some e => (emitted, some e)
  | none => (emitted ++ [doneChunk], none)

/-- One Gemini streaming response: the parts lists of its candidates. -/
structure GeminiStreamResp where
  candidates : List (List GoStr)
deriving DecidableEq

/-- `GeminiClient.CompleteStream` (llms.go, Gemini variant): emit
`Candidates[0].Content.Parts[0]` for every response with a non-empty
candidate whose parts are non-empty; a non-"iterator done" error from
`iter.Next()` is wrapped and sent to the error channel, ending the stream
without a done chunk; the "iterator done" sentinel leads to the done chunk. -/
def GeminiClient_CompleteStream (steps : List GeminiStreamResp)
    (iterErr : Option GoErr) : List CompletionChunk × Option GoErr :=
  let emitted := steps.filterMap (fun r =>
    match r.candidates with
    | (p :: _) :: _ => some (⟨p, "gemini", false⟩ : CompletionChunk)
    | _ => none)
  match iterErr with
  | some e => (emitted, some (.wrap "stream error" e))
  | none => (emitted ++ [doneChunk], none)

/-- One streamed Groq chunk: the delta contents of its `Choices` list. -/
structure GroqStreamChunk where
  choices : List GoStr
deriving DecidableEq

/-- `GroqClient.CompleteStream` (llms.go): an error from the initial
`CreateChatCompletion` call goes to the error channel and nothing is
emitted; otherwise every chunk with a non-empty choice list yields its
first delta, and the done chunk always follows (the groq stream channel
carries no mid-stream error). -/
def GroqClient_CompleteStream (upfrontErr : Option GoErr)
    (chunks : List GroqStreamChunk) : List CompletionChunk × Option GoErr :=
  match upfrontErr with
  | some e => ([], some e)
  | none =>
    (chunks.filterMap (fun ch =>
      match ch.choices with
      | [] => none
      | d :: _ => some ⟨d, "groq", false⟩) ++ [doneChunk], none)

/-- The JSON payload of one Bedrock stream chunk, as decoded into
`BedrockStreamCompletionResponse`. -/
structure BedrockStreamResp where
  type : String
  deltaText : GoStr
deriving DecidableEq

/-- One event of the Bedrock response stream: a member chunk whose bytes
either decode (`some payload`) or fail `json.Unmarshal` (`none`), an
`UnknownUnionMember`, or any other (including nil) event. -/
inductive BedrockStreamEvent where
  | memberChunk (decoded : Option BedrockStreamResp)
  | unknownUnion (tag : String)
  | otherEvent
deriving DecidableEq

/-- The event loop of `BedrockClient.CompleteStream` (llms.go, Bedrock
variant): a decode failure, an unknown union member, or an unrecognized
event type each surface one error and end the stream without a done chunk;
`content_block_delta` payloads with non-empty text are emitted; when the
event stream is exhausted the done chunk is sent. -/
def bedrockEventLoop : List BedrockStreamEvent → List CompletionChunk × Option GoErr
  | [] => ([doneChunk], none)
  | .memberChunk none :: _ => ([], some (.other "failed to decode chunk"))
  | .memberChunk (some r) :: rest =>
    let out := bedrockEventLoop rest
    if r.type = "content_block_delta" ∧ r.deltaText ≠ [] then
      (⟨r.deltaText, "bedrock", false⟩ :: out.1, out.2)
    else out
  | .unknownUnion tag :: _ =>
    ([], some (.other ("unknown response stream event: " ++ tag)))
  | .otherEvent :: _ => ([], some (.other "received unknown event type"))

/-- `BedrockClient.CompleteStream`: a failure of
`InvokeModelWithResponseStream` is wrapped onto the error channel before
any event is read; otherwise the event loop runs.  (The `json.Marshal` of
the request cannot fail for the request values the client builds.) -/
def BedrockClient_CompleteStream (invokeErr : Option GoErr)
    (events : List BedrockStreamEvent) : List CompletionChunk × Option GoErr :=
  match invokeErr with
  | some e => ([], some (.wrap "failed to invoke model" e))
  | none => bedrockEventLoop events

/-! ### Blocking adapters (`Complete`) -/

/-- An OpenAI chat response: the message contents of its `Choices`. -/
structure ChatCompletionResponse where
  choices : List GoStr
deriving DecidableEq

/-- `OpenAIClient.Complete` (llms.go): a backend error is returned as-is;
otherwise the code evaluates `resp.Choices[0].Message.Content` with no
emptiness check, which panics on a response with zero choices. -/
def OpenAIClient_Complete (backend : Except GoErr ChatCompletionResponse) :
    GoResult CompletionResponse :=
  match backend with
  | .error e => .err e
  | .ok resp =>
    match resp.choices with
    | [] => .panicked "runtime error: index out of range"
    | c :: _ => .ok ⟨c, "openai"⟩

/-- An Anthropic message response: the texts of its `Content` blocks. -/
structure ClaudeMessageResponse where
  content : List GoStr
deriving DecidableEq

/-- `ClaudeClient.Complete` (llms.go): a backend error is returned as-is;
otherwise the code evaluates `resp.Content[0].Text` with no emptiness
check, which panics on a response with zero content blocks. -/
def ClaudeClient_Complete (backend : Except GoErr ClaudeMessageResponse) :
    GoResult CompletionResponse :=
  match backend with
  | .error e => .err e
  | .ok resp =>
    match resp.content with
    | [] => .panicked "runtime error: index out of range"
    | c :: _ => .ok ⟨c, "claude"⟩

/-- A Gemini generate-content response: the parts of its candidates. -/
structure GeminiGenResponse where
  candidates : List (List GoStr)
deriving DecidableEq

/-- `GeminiClient.Complete` (llms.go, Gemini variant): a backend error is
wrapped; a response with zero candidates or zero parts in the first
candidate yields the error "no content in response"; otherwise the first
part is returned. -/
def GeminiClient_Complete (backend : Except GoErr GeminiGenResponse) :
    GoResult CompletionResponse :=
  match backend with
  | .error e => .err (.wrap "failed to generate content" e)
  | .ok resp =>
    match resp.candidates with
    | [] => .err (.other "no content in response")
    | parts :: _ =>
      match parts with
      | [] => .err (.other "no content in response")
      | p :: _ => .ok ⟨p, "gemini"⟩

/-! ### Facade constructor (`NewLLMClient`) -/

/-- The clients an `LLMClient` value can be. -/
inductive LLMClient where
  | openaiClient (apiKey : String)
  | claudeClient (apiKey : String)
  | groqClient (apiKey : String)
  | geminiClient (apiKey : String)
  | bedrockClient
deriving DecidableEq

/-- `NewLLMClient` of the Gemini-variant llms.go (lines 78-91): dispatch on
the provider identifier; unrecognized providers yield
`fmt.Errorf("unsupported provider: %s", provider)`. -/
def NewLLMClient_v1 (provider : LLMProvider) (apiKey : String) :
    Except GoErr LLMClient :=
  if provider = "openai" then .ok (.openaiClient apiKey)
  else if provider = "claude" then .ok (.claudeClient apiKey)
  else if provider = "groq" then .ok (.groqClient apiKey)
  else if provider = "gemini" then .ok (.geminiClient apiKey)
  else .error (.other ("unsupported provider: " ++ provider))

/-- The credential bundle (`*Config`) consumed by the Bedrock-variant
constructor. -/
structure Config where
  openAIAPIKey : String
  anthropicAPIKey : String
  groqAPIKey : String
deriving DecidableEq

/-- `NewLLMClient` of the Bedrock-variant llms.go (lines 492-505).
`newBedrock` stands for the outcome of `NewBedrockClient` (which can fail
while loading the AWS configuration). -/
def NewLLMClient_v2 (newBedrock : Except GoErr LLMClient)
    (provider : LLMProvider) (cfg : Config) : Except GoErr LLMClient :=
  if provider = "openai" then .ok (.openaiClient cfg.openAIAPIKey)
  else if provider = "claude" then .ok (.claudeClient cfg.anthropicAPIKey)
  else if provider = "groq" then .ok (.groqClient cfg.groqAPIKey)
  else if provider = "bedrock" then newBedrock
  else .error (.other ("unsupported provider: " ++ provider))

/-! ### Retry wrapper (`callChatGPTAPIWithBackoff`, cmd/ytt/ytt.go) -/

/-- Models Go `errors.As(err, &openAIError)` for `*openai.APIError`:
walks the wrap chain and exposes the API error's status code and message. -/
def asAPIError : GoErr → Option (Nat × String)
  | .apiError status msg => some (status, msg)
  | .wrap _ inner => asAPIError inner
  | .other _ => none

/-- The retry classification of `callChatGPTAPIWithBackoff`: an error is
retried exactly when it is (or wraps) an `*openai.APIError` whose
`HTTPStatusCode` is 429 (`http.StatusTooManyRequests`); every other error
is wrapped in `backoff.Permanent`, which stops the retry loop. -/
def isTransient (e : GoErr) : Bool :=
  match asAPIError e with
  | some (status, _) => status == 429
  | none => false

/-- The `backoff.Retry` loop around the chat-completion call.  `op n` is
the outcome of the n-th attempt (0-based); `fuel` abstracts the number of
further retries the exponential backoff's 10-minute `MaxElapsedTime`
still permits (with no budget left, the last error is surfaced).  Returns
the final outcome and the 1-based index of the last attempt made. -/
def backoffRetrySim (op : Nat → Except GoErr α) : Nat → Nat → Except GoErr α × Nat
  | attempt, 0 =>
    match op attempt with
    | .ok a => (.ok a, attempt + 1)
    | .error e => (.error e, attempt + 1)
  | attempt, fuel + 1 =>
    match op attempt with
    | .ok a => (.ok a, attempt + 1)
    | .error e =>
      if isTransient e then backoffRetrySim op (attempt + 1) fuel
      else (.error e, attempt + 1)

/-! ### Legacy blocking pipeline (cmd/ytt/ytt.go) -/

/-- One message of the legacy `openai.ChatCompletionRequest`. -/
structure LegacyChatMessage where
  role : String
  content : GoStr
deriving DecidableEq

/-- The fixed system-role text of `callChatGPTAPIWithBackoff`, to which the
first chunk (`contextTxt`) is appended. -/
def legacySystemPre : String :=
  "You are a top tier podcast transcriptionist skilled in grammer, spelling and punctuation. You specialize in taking rough transcripts and cleaning and formatting them with full accuracy. Use the following transcript from the beginning for context\n\n"

/-- The `prompt` constant of cmd/ytt/ytt.go. -/
def legacyUserPrompt : String :=
  "Clean up the following podcast transcription snippet and generate a clean version. Do not remove anything and stay as close as possible to the original text. Only include the cleaned up transcript."

/-- The messages `callChatGPTAPIWithBackoff` sends: system role carrying
the fixed text plus `contextTxt`, user role carrying the fixed prompt, two
newlines, and the chunk text. -/
def buildLegacyMessages (contextTxt text : GoStr) : List LegacyChatMessage :=
  [⟨"system", legacySystemPre.toList ++ contextTxt⟩,
   ⟨"user", legacyUserPrompt.toList ++ [Char.ofNat 10, Char.ofNat 10] ++ text⟩]

/-- `maxWordsPerChunk` from cmd/ytt/ytt.go. -/
def maxWordsPerChunk : Nat := 3000

/-- The loop of `chunkTranscript` (cmd/ytt/ytt.go): every scanned word is
written followed by one space; the chunk is flushed when the count reaches
`maxWordsPerChunk`, and a non-empty remainder is flushed at the end. -/
def chunkTranscriptLoop : List GoStr → GoStr → Nat → List GoStr → List GoStr
  | [], cur, _, acc => if cur ≠ [] then acc ++ [cur] else acc
  | w :: ws, cur, cnt, acc =>
    let cur1 := cur ++ w ++ [' ']
    if cnt + 1 ≥ maxWordsPerChunk then chunkTranscriptLoop ws [] 0 (acc ++ [cur1])
    else chunkTranscriptLoop ws cur1 (cnt + 1) acc

/-- `chunkTranscript` from cmd/ytt/ytt.go (`bufio.ScanWords` tokenizes on
whitespace exactly as `strings.Fields` does). -/
def chunkTranscript (t : GoStr) : List GoStr := chunkTranscriptLoop (fields t) [] 0 []

/-- The per-chunk requests issued by the legacy `Command.RunE` loop:
`contextTxt := chunks[0]`, then `callChatGPTAPIWithBackoff(client,
contextTxt, chunk)` for every chunk in order.  On an empty chunk list the
Go code panics indexing `chunks[0]`, modelled as `none`. -/
def runELegacyMessages (t : GoStr) : Option (List (List LegacyChatMessage)) :=
  match chunkTranscript t with
  | [] => none
  | c0 :: cs => some ((c0 :: cs).map (buildLegacyMessages c0))

/-! ### Streaming orchestrator (`YouTubeTranscriber.Transcribe`) -/

/-- An ASCII apostrophe, spelled via its code point. -/
def squote : String := (Char.ofNat 39).toString

/-- The part of the `userPrompt` template (transcriber source, lines 12-33)
before the `%s` verb. -/
def userPromptPre : String :=
  "You will be given auto-generated captions from a YouTube video. These may be full captions, or a segment of the full transcript if it is too large. Your task is to transform these captions into a clean, readable transcript. Here are the auto-generated captions:\n\n<captions>\n"

/-- The part of the `userPrompt` template after the `%s` verb. -/
def userPromptPost : String :=
  "\n</captions>\n\nFollow these steps to create a clean transcript:\n\n1. Correct any spelling errors you encounter. Use your knowledge of common words and context to determine the correct spelling.\n\n2. Add appropriate punctuation throughout the text. This includes commas, periods, question marks, and exclamation points where necessary.\n\n3. Capitalize the first letter of each sentence and proper nouns.\n\n4. Break the text into logical paragraphs. Start a new paragraph when there" ++
  squote ++
  "s a shift in topic or speaker.\n\n5. Remove any unnecessary filler words, repetitions, or false starts.\n\n6. Maintain the original meaning and intent of the transcript. Do not remove any content even if it is unrelated to the main topic.\n\n\nOnce you have completed these steps, provide the clean transcript . Ensure that the transcript is well-formatted, easy to read, and accurately represents the original content of the video. Do not include any additional text in your response."

/-- `fmt.Sprintf(userPrompt, chunk)`: the template with the chunk
substituted for its single `%s` verb. -/
def userPromptFmt (chunk : GoStr) : GoStr :=
  userPromptPre.toList ++ chunk ++ userPromptPost.toList

/-- The `CompletionRequest` `Transcribe` builds for one chunk:
`{UserPrompt: fmt.Sprintf(userPrompt, chunk), Model: yt.model}` (the
`SystemPrompt` field keeps its zero value). -/
def mkChunkRequest (model : LLMModel) (chunk : GoStr) : CompletionRequest :=
  ⟨[], userPromptFmt chunk, model⟩

/-- Draining one chunk's response channel: each received chunk is passed
to the callback; a callback error stops consumption at once.  Returns the
invocations made and the first callback error, if any. -/
def feedSink (sink : GoStr → Bool → Option GoErr) :
    List CompletionChunk → List (GoStr × Bool) × Option GoErr
  | [] => ([], none)
  | c :: rest =>
    match sink c.text c.done with
    | some e => ([(c.text, c.done)], some e)
    | none =>
      let out := feedSink sink rest
      ((c.text, c.done) :: out.1, out.2)

/-- The observable behaviour of one `Transcribe` run: the requests passed
to `CompleteStream` in order, the callback invocations in order, and the
returned error (if any). -/
structure TranscribeRun where
  requests : List CompletionRequest
  sinkCalls : List (GoStr × Bool)
  result : Option GoErr
deriving DecidableEq

/-- The chunk loop of `YouTubeTranscriber.Transcribe` (transcriber source,
lines 81-96): for each chunk open a stream with the formatted user prompt,
forward every received chunk to the callback (a callback error returns
`fmt.Errorf("callback error: %w", err)` at once), then check the error
channel (an error returns `fmt.Errorf("error from LLM: %w", err)`); only
then move to the next chunk. -/
def transcribeChunks (model : LLMModel)
    (completeStream : CompletionRequest → List CompletionChunk × Option GoErr)
    (sink : GoStr → Bool → Option GoErr) : List GoStr → TranscribeRun
  | [] => ⟨[], [], none⟩
  | chunk :: rest =>
    let req := mkChunkRequest model chunk
    let out := completeStream req
    let fed := feedSink sink out.1
    match fed.2 with
    | some e => ⟨[req], fed.1, some (.wrap "callback error" e)⟩
    | none =>
      match out.2 with
      | some e => ⟨[req], fed.1, some (.wrap "error from LLM" e)⟩
      | none =>
        let run := transcribeChunks model completeStream sink rest
        ⟨req :: run.requests, fed.1 ++ run.sinkCalls, run.result⟩

/-- `YouTubeTranscriber.Transcribe` after the transcript text has been
fetched and joined: chunk via `splitText`, then run the chunk loop. -/
def transcribe (limits : LLMModel → Nat) (model : LLMModel)
    (completeStream : CompletionRequest → List CompletionChunk × Option GoErr)
    (sink : GoStr → Bool → Option GoErr) (transcriptTxt : GoStr) : TranscribeRun :=
  transcribeChunks model completeStream sink (splitText limits model transcriptTxt)

/-! ### Property-level definitions -/

/-- `startsWith pat s`: `s` begins with the character sequence `pat`. -/
def startsWith : GoStr → GoStr → Bool
  | [], _ => true
  | _ :: _, [] => false
  | p :: ps, c :: cs => p == c && startsWith ps cs

/-- `containsSeq pat s`: `pat` occurs contiguously somewhere in `s`. -/
def containsSeq (pat : GoStr) : GoStr → Bool
  | [] => startsWith pat []
  | c :: cs => startsWith pat (c :: cs) || containsSeq pat cs

/-- The streaming terminal invariant for one `CompleteStream` outcome: on
success the done chunk (with empty text) is emitted exactly once and last;
on failure exactly one error is surfaced and no done chunk is emitted. -/
def streamInvariant (out : List CompletionChunk × Option GoErr) : Prop :=
  match out.2 with
  | none =>
    out.1.filter (fun c => c.done) = [doneChunk] ∧
    out.1.getLast? = some doneChunk ∧ doneChunk.text = []
  | some _ => out.1.all (fun c => !c.done) = true

/-- The chunk-size bound of the spec for one table: every chunk but the
last has exactly the word budget many words; the last has between 1 and
that many. -/
def chunkBound (limits : LLMModel → Nat) (model : LLMModel) (text : GoStr) : Prop :=
  (∀ i c, i + 1 < (splitText limits model text).length →
    (splitText limits model text)[i]? = some c →
    countWords c = calcWordsFromTokens (limits model)) ∧
  (∀ c, (splitText limits model text).getLast? = some c →
    1 ≤ countWords c ∧ countWords c ≤ calcWordsFromTokens (limits model))

/-- The word groups the `splitText` loop forms, continuing from an already
accumulated partial group `p`: a group is flushed as soon as it reaches
`mw` words, and a non-empty remainder forms the final group. -/
def chunkCont (mw : Nat) : List GoStr → List GoStr → List (List GoStr)
  | p, [] => if p = [] then [] else [p]
  | p, w :: ws =>
    if p.length + 1 ≥ mw then (p ++ [w]) :: chunkCont mw [] ws
    else chunkCont mw (p ++ [w]) ws

/-- Chunk strings of the word groups after the first: each is rendered with
one leading space (the separator the loop wrote before the group's first
word, which stays in the builder across a flush). -/
def renderTail (gs : List (List GoStr)) : List GoStr :=
  gs.map (fun g => ' ' :: joinWords g)

/-- Chunk strings of a whole group sequence: the first group is rendered
without a leading space, the rest with one. -/
def renderGroups : List (List GoStr) → List GoStr
  | [] => []
  | g :: gs => joinWords g :: renderTail gs

/-- The transcript of the spec's end-to-end scenario. -/
def foxText : GoStr := "the quick brown fox jumps over the lazy dog".toList

/-- The stub adapter of the end-to-end scenario: echoes the request's user
prompt as one streamed chunk, followed by the done chunk. -/
def stubEchoAdapter (req : CompletionRequest) :
    List CompletionChunk × Option GoErr :=
  ([⟨req.userPrompt, "stub", false⟩, doneChunk], none)

/-- A sink that accepts every chunk. -/
def nilSink : GoStr → Bool → Option GoErr := fun _ _ => none

/-- An explicit overload signal from the backend: OpenAI reports an
overloaded engine as an HTTP 503 API error ("The engine is currently
overloaded, please try again later"), not as a 429. -/
def overloadedErr : GoErr :=
  .apiError 503 "the engine is currently overloaded, please try again later"

/-- A simulated provider call that fails with a rate-limit error on its
first two attempts and then succeeds. -/
def rateLimitedTwice (r : α) (attempt : Nat) : Except GoErr α :=
  if attempt < 2 then .error (.apiError 429 "rate limit exceeded") else .ok r

/-- A simulated provider call that fails with the overload signal on its
first attempt and then succeeds. -/
def overloadedThenOk (r : α) (attempt : Nat) : Except GoErr α :=
  if attempt = 0 then .error overloadedErr else .ok r

/-! ### Basic lemmas on word rendering -/

/-- `tailRender` distributes over append. -/
theorem tailRender_append (a b : List GoStr) :
    tailRender (a ++ b) = tailRender a ++ tailRender b := by
  induction a with
  | nil => simp [tailRender]
  | cons w a ih => simp [tailRender, ih]

/-- For a non-empty word list, `tailRender` is `joinWords` with one leading
space. -/
theorem tailRender_ne_nil (g : List GoStr) (h : g ≠ []) :
    tailRender g = ' ' :: joinWords g := by
  cases g with
  | nil => simp at h
  | cons u g => simp [tailRender, joinWords]

/-- `joinWords` of an append splits into `joinWords` and `tailRender`. -/
theorem joinWords_append (a b : List GoStr) (ha : a ≠ []) :
    joinWords (a ++ b) = joinWords a ++ tailRender b := by
  cases a with
  | nil => simp at ha
  | cons w a => simp [joinWords, tailRender_append]

/-- Appending one word to a non-empty group appends a space and the word. -/
theorem joinWords_concat (p : List GoStr) (w : GoStr) (hp : p ≠ []) :
    joinWords (p ++ [w]) = joinWords p ++ (' ' :: w) := by
  rw [joinWords_append p [w] hp]
  simp [tailRender]

/-! ### Lemmas on `fields` -/

/-- Pieces produced by `splitOnP` contain no separator. -/
theorem splitOnP_mem_no_sep (p : α → Bool) :
    ∀ (s : List α), ∀ w ∈ s.splitOnP p, ∀ c ∈ w, ¬ p c := by
  intro s
  induction s with
  | nil =>
    intro w hw c hc
    simp only [List.splitOnP_nil, List.mem_singleton] at hw
    subst hw
    simp at hc
  | cons x xs ih =>
    intro w hw c hc
    rw [List.splitOnP_cons] at hw
    by_cases hx : p x
    · rw [if_pos hx] at hw
      rcases List.mem_cons.mp hw with h | h
      · subst h; simp at hc
      · exact ih w h c hc
    · rw [if_neg hx] at hw
      obtain ⟨hd, tl, hsp⟩ : ∃ hd tl, xs.splitOnP p = hd :: tl := by
        cases hq : xs.splitOnP p with
        | nil => exact absurd hq (List.splitOnP_ne_nil p xs)
        | cons a b => exact ⟨a, b, rfl⟩
      rw [hsp, List.modifyHead_cons] at hw
      rcases List.mem_cons.mp hw with h | h
      · subst h
        rcases List.mem_cons.mp hc with h | h
        · subst h; exact hx
        · exact ih hd (by rw [hsp]; exact List.mem_cons_self _ _) c h
      · exact ih w (by rw [hsp]; exact List.mem_cons_of_mem _ h) c hc

/-- Every word `strings.Fields` returns is non-empty. -/
theorem fields_ne_nil {s : GoStr} : ∀ w ∈ fields s, w ≠ [] := by
  intro w hw
  have := (List.mem_filter.mp hw).2
  simpa using this

/-- No word `strings.Fields` returns contains whitespace. -/
theorem fields_no_space {s : GoStr} :
    ∀ w ∈ fields s, ∀ c ∈ w, isSpace c = false := by
  intro w hw c hc
  have hmem := (List.mem_filter.mp hw).1
  have := splitOnP_mem_no_sep isSpace s w hmem c hc
  simpa using this

/-- A word of `fields s` is non-empty and whitespace-free. -/
theorem fields_ok {s : GoStr} :
    ∀ w ∈ fields s, w ≠ [] ∧ ∀ c ∈ w, isSpace c = false :=
  fun w hw => ⟨fields_ne_nil w hw, fields_no_space w hw⟩

/-- A leading whitespace character does not change the fields. -/
theorem fields_space_cons {c : Char} (hc : isSpace c = true) (cs : GoStr) :
    fields (c :: cs) = fields cs := by
  unfold fields
  rw [List.splitOnP_cons, if_pos hc]
  simp

/-- `fields []` is empty. -/
theorem fields_nil : fields [] = [] := by
  unfold fields
  simp

/-- Splitting off a leading whitespace-free non-empty word: the remainder
must be empty or start with whitespace. -/
theorem fields_word_cons {w rest : GoStr} (hw : w ≠ [])
    (hok : ∀ c ∈ w, isSpace c = false)
    (hrest : rest = [] ∨ ∃ c cs, rest = c :: cs ∧ isSpace c = true) :
    fields (w ++ rest) = w :: fields rest := by
  have hok' : ∀ c ∈ w, ¬ isSpace c := by
    intro c hc
    simp [hok c hc]
  rcases hrest with h | ⟨c, cs, hr, hc⟩
  · subst h
    unfold fields
    rw [List.append_nil, List.splitOnP_eq_single isSpace w hok']
    simp [hw]
  · subst hr
    unfold fields
    rw [List.splitOnP_first isSpace w hok' c hc cs, List.splitOnP_cons, if_pos hc]
    simp [hw]

/-- `fields` recovers the word list from its space-led rendering. -/
theorem fields_tailRender {ws : List GoStr}
    (h : ∀ u ∈ ws, u ≠ [] ∧ ∀ c ∈ u, isSpace c = false) :
    fields (tailRender ws) = ws := by
  induction ws with
  | nil => simpa [tailRender] using fields_nil
  | cons w rest ih =>
    have hw := h w (List.mem_cons_self _ _)
    have hrest : ∀ u ∈ rest, u ≠ [] ∧ ∀ c ∈ u, isSpace c = false :=
      fun u hu => h u (List.mem_cons_of_mem _ hu)
    show fields (' ' :: (w ++ tailRender rest)) = w :: rest
    rw [fields_space_cons (by decide) _]
    rw [fields_word_cons hw.1 hw.2]
    · rw [ih hrest]
    · cases rest with
      | nil => left; simp [tailRender]
      | cons u r =>
        right
        exact ⟨' ', u ++ tailRender r, by simp [tailRender], by decide⟩

/-- `fields` recovers the word list from its space-joined rendering. -/
theorem fields_joinWords {ws : List GoStr}
    (h : ∀ u ∈ ws, u ≠ [] ∧ ∀ c ∈ u, isSpace c = false) :
    fields (joinWords ws) = ws := by
  cases ws with
  | nil => simpa [joinWords] using fields_nil
  | cons w rest =>
    have hw := h w (List.mem_cons_self _ _)
    have hrest : ∀ u ∈ rest, u ≠ [] ∧ ∀ c ∈ u, isSpace c = false :=
      fun u hu => h u (List.mem_cons_of_mem _ hu)
    show fields (w ++ tailRender rest) = w :: rest
    rw [fields_word_cons hw.1 hw.2]
    · rw [fields_tailRender hrest]
    · cases rest with
      | nil => left; simp [tailRender]
      | cons u r =>
        right
        exact ⟨' ', u ++ tailRender r, by simp [tailRender], by decide⟩

/-! ### Lemmas on `chunkCont` -/

/-- Flattening the groups recovers the pending words followed by the rest. -/
theorem chunkCont_flatten (mw : Nat) :
    ∀ (ws p : List GoStr), (chunkCont mw p ws).flatten = p ++ ws := by
  intro ws
  induction ws with
  | nil =>
    intro p
    by_cases hp : p = [] <;> simp [chunkCont, hp]
  | cons w ws ih =>
    intro p
    simp only [chunkCont]
    by_cases h : p.length + 1 ≥ mw
    · rw [if_pos h]
      simp [ih]
    · rw [if_neg h, ih]
      simp

/-- No group is empty. -/
theorem chunkCont_ne_nil (mw : Nat) :
    ∀ (ws p : List GoStr), ∀ g ∈ chunkCont mw p ws, g ≠ [] := by
  intro ws
  induction ws with
  | nil =>
    intro p g hg
    by_cases hp : p = [] <;> simp [chunkCont, hp] at hg
    subst hg; exact hp
  | cons w ws ih =>
    intro p g hg
    simp only [chunkCont] at hg
    by_cases h : p.length + 1 ≥ mw
    · rw [if_pos h] at hg
      rcases List.mem_cons.mp hg with h' | h'
      · subst h'; simp
      · exact ih [] g h'
    · rw [if_neg h] at hg
      exact ih (p ++ [w]) g hg

/-- Every word in a group comes from the pending words or the input. -/
theorem chunkCont_mem_subset (mw : Nat) (ws p : List GoStr) (g : List GoStr)
    (hg : g ∈ chunkCont mw p ws) : ∀ u ∈ g, u ∈ p ∨ u ∈ ws := by
  intro u hu
  have : u ∈ (chunkCont mw p ws).flatten := List.mem_flatten.mpr ⟨g, hg, hu⟩
  rw [chunkCont_flatten] at this
  exact List.mem_append.mp this

/-- Every group except the last has exactly `mw` words (index form). -/
theorem chunkCont_sizes_init (mw : Nat) :
    ∀ (ws p : List GoStr), p.length < mw →
    ∀ i g, i + 1 < (chunkCont mw p ws).length →
      (chunkCont mw p ws)[i]? = some g → g.length = mw := by
  intro ws
  induction ws with
  | nil =>
    intro p hp i g hlen _
    by_cases hp0 : p = [] <;> simp [chunkCont, hp0] at hlen
  | cons w ws ih =>
    intro p hp i g hlen hget
    simp only [chunkCont] at hlen hget ⊢
    by_cases h : p.length + 1 ≥ mw
    · rw [if_pos h] at hlen hget
      cases i with
      | zero =>
        simp at hget
        subst hget
        simp
        omega
      | succ n =>
        simp only [List.getElem?_cons_succ] at hget
        simp only [List.length_cons] at hlen
        exact ih [] (by simp only [List.length_nil]; omega) n g (by omega) hget
    · rw [if_neg h] at hlen hget
      exact ih (p ++ [w]) (by simp; omega) i g hlen hget

/-- The last group has between 1 and `mw` words. -/
theorem chunkCont_sizes_last (mw : Nat) :
    ∀ (ws p : List GoStr), p.length < mw →
    ∀ g, (chunkCont mw p ws).getLast? = some g →
      1 ≤ g.length ∧ g.length ≤ mw := by
  intro ws
  induction ws with
  | nil =>
    intro p hp g hg
    by_cases hp0 : p = [] <;> simp [chunkCont, hp0] at hg
    subst hg
    have : 0 < p.length := List.length_pos.mpr hp0
    omega
  | cons w ws ih =>
    intro p hp g hg
    simp only [chunkCont] at hg
    by_cases h : p.length + 1 ≥ mw
    · rw [if_pos h] at hg
      cases hq : chunkCont mw [] ws with
      | nil =>
        rw [hq] at hg
        simp at hg
        subst hg
        simp
        omega
      | cons x t =>
        rw [hq, List.getLast?_cons_cons] at hg
        exact ih [] (by simp only [List.length_nil]; omega) g (hq ▸ hg)
    · rw [if_neg h] at hg
      exact ih (p ++ [w]) (by simp; omega) g hg

/-! ### Characterization of the `splitText` loop -/

/-- The loop after the first flush (or while the first group is still
empty): the builder holds the pending group rendered with its leading
space, and the result appends the space-led renderings of the remaining
groups. -/
theorem splitTextLoop_tail (mw : Nat) :
    ∀ (ws p : List GoStr) (i : Nat) (acc : List GoStr), 0 < i →
    splitTextLoop mw ws i (if p = [] then [] else ' ' :: joinWords p) p.length acc =
      acc ++ renderTail (chunkCont mw p ws) := by
  intro ws
  induction ws with
  | nil =>
    intro p i acc hi
    by_cases hp : p = []
    · simp [splitTextLoop, chunkCont, renderTail, hp]
    · simp [splitTextLoop, chunkCont, renderTail, hp]
  | cons w ws ih =>
    intro p i acc hi
    have hi' : (if i > 0 then ([' '] : GoStr) else []) = [' '] := by
      simp [hi]
    have hcur : (if p = [] then ([] : GoStr) else ' ' :: joinWords p) ++ ([' '] ++ w)
        = ' ' :: joinWords (p ++ [w]) := by
      by_cases hp : p = []
      · subst hp; simp [joinWords, tailRender]
      · rw [if_neg hp, joinWords_concat p w hp]; simp
    simp only [splitTextLoop, hi', List.append_assoc, hcur]
    by_cases h : p.length + 1 ≥ mw
    · rw [if_pos h]
      have hrec := ih [] (i + 1) (acc ++ [' ' :: joinWords (p ++ [w])]) (by omega)
      simp at hrec
      rw [hrec]
      have hcc : chunkCont mw p (w :: ws) = (p ++ [w]) :: chunkCont mw [] ws := by
        simp only [chunkCont, if_pos h]
      rw [hcc]
      simp [renderTail]
    · rw [if_neg h]
      have hne : p ++ [w] ≠ [] := by simp
      have hrec := ih (p ++ [w]) (i + 1) acc (by omega)
      simp only [if_neg hne, List.length_append, List.length_singleton] at hrec
      have hcc : chunkCont mw p (w :: ws) = chunkCont mw (p ++ [w]) ws := by
        simp only [chunkCont, if_neg h]
      rw [hcc]
      exact hrec

/-- The loop while the first group is being built: the builder holds the
pending group rendered without a leading space, and the result appends the
renderings of all groups (first one space-free). -/
theorem splitTextLoop_first (mw : Nat) :
    ∀ (ws p : List GoStr) (i : Nat) (acc : List GoStr), 0 < i → p ≠ [] →
    (∀ u ∈ p, u ≠ []) → (∀ u ∈ ws, u ≠ []) →
    splitTextLoop mw ws i (joinWords p) p.length acc =
      acc ++ renderGroups (chunkCont mw p ws) := by
  intro ws
  induction ws with
  | nil =>
    intro p i acc hi hp hpok _
    have hjw : joinWords p ≠ [] := by
      cases p with
      | nil => simp at hp
      | cons u p' =>
        have hu : u ≠ [] := hpok u (List.mem_cons_self _ _)
        cases u with
        | nil => simp at hu
        | cons c u' => simp [joinWords]
    simp [splitTextLoop, chunkCont, renderGroups, renderTail, hp, hjw]
  | cons w ws ih =>
    intro p i acc hi hp hpok hwok
    have hi' : (if i > 0 then ([' '] : GoStr) else []) = [' '] := by
      simp [hi]
    have hcur : joinWords p ++ ([' '] ++ w) = joinWords (p ++ [w]) := by
      rw [joinWords_concat p w hp]; simp
    simp only [splitTextLoop, hi', List.append_assoc, hcur]
    by_cases h : p.length + 1 ≥ mw
    · rw [if_pos h]
      have hrec := splitTextLoop_tail mw ws [] (i + 1) (acc ++ [joinWords (p ++ [w])]) (by omega)
      simp at hrec
      rw [hrec]
      have hcc : chunkCont mw p (w :: ws) = (p ++ [w]) :: chunkCont mw [] ws := by
        simp only [chunkCont, if_pos h]
      rw [hcc]
      simp [renderGroups]
    · rw [if_neg h]
      have hne : p ++ [w] ≠ [] := by simp
      have hpok' : ∀ u ∈ p ++ [w], u ≠ [] := by
        intro u hu
        rcases List.mem_append.mp hu with h' | h'
        · exact hpok u h'
        · rw [List.mem_singleton.mp h']
          exact hwok w (List.mem_cons_self _ _)
      have hwok' : ∀ u ∈ ws, u ≠ [] := fun u hu => hwok u (List.mem_cons_of_mem _ hu)
      have hrec := ih (p ++ [w]) (i + 1) acc (by omega) hne hpok' hwok'
      simp only [List.length_append, List.length_singleton] at hrec
      have hcc : chunkCont mw p (w :: ws) = chunkCont mw (p ++ [w]) ws := by
        simp only [chunkCont, if_neg h]
      rw [hcc]
      exact hrec

/-- `splitTextW` produces exactly the rendered word groups: the first chunk
without a leading space, every later chunk with one. -/
theorem splitTextW_eq (mw : Nat) (text : GoStr) :
    splitTextW mw text = renderGroups (chunkCont mw [] (fields text)) := by
  have hwok : ∀ u ∈ fields text, u ≠ [] := fields_ne_nil
  unfold splitTextW
  rcases hf : fields text with _ | ⟨w, ws⟩
  · simp [splitTextLoop, chunkCont, renderGroups]
  · have hwne : w ≠ [] := by
      have := hwok w
      rw [hf] at this
      exact this (List.mem_cons_self _ _)
    have hwsok : ∀ u ∈ ws, u ≠ [] := by
      intro u hu
      have := hwok u
      rw [hf] at this
      exact this (List.mem_cons_of_mem _ hu)
    simp only [splitTextLoop]
    have h0 : (if (0 : Nat) > 0 then ([' '] : GoStr) else []) = [] := by simp
    simp only [h0, List.nil_append]
    by_cases h : (0 : Nat) + 1 ≥ mw
    · rw [if_pos h]
      have hrec := splitTextLoop_tail mw ws [] 1 ([] ++ [w]) (by omega)
      simp at hrec
      rw [hrec]
      have hcc : chunkCont mw [] (w :: ws) = ([] ++ [w]) :: chunkCont mw [] ws := by
        simp only [chunkCont, List.length_nil, if_pos h]
      rw [hcc]
      simp [renderGroups, joinWords, tailRender]
    · rw [if_neg h]
      have hjw : joinWords [w] = w := by simp [joinWords, tailRender]
      have hlen : ([w] : List GoStr).length = 0 + 1 := by simp
      have hrec := splitTextLoop_first mw ws [w] 1 [] (by omega) (by simp)
        (by intro u hu; rw [List.mem_singleton.mp hu]; exact hwne) hwsok
      rw [hjw] at hrec
      simp only [List.length_singleton] at hrec
      rw [hrec]
      have hcc : chunkCont mw [] (w :: ws) = chunkCont mw [w] ws := by
        simp only [chunkCont, List.length_nil, if_neg h]
        simp
      rw [hcc]
      simp

/-! ### Rendering bridges -/

/-- Rendering preserves the number of groups. -/
theorem renderGroups_length (gs : List (List GoStr)) :
    (renderGroups gs).length = gs.length := by
  cases gs with
  | nil => simp [renderGroups]
  | cons g gs => simp [renderGroups, renderTail]

/-- The chunk at index `i` renders the group at index `i`. -/
theorem renderGroups_getElem? (gs : List (List GoStr)) (i : Nat) :
    (renderGroups gs)[i]? =
      (gs[i]?).map (fun g => if i = 0 then joinWords g else ' ' :: joinWords g) := by
  cases gs with
  | nil => simp [renderGroups]
  | cons g gs =>
    cases i with
    | zero => simp [renderGroups]
    | succ n => simp [renderGroups, renderTail]

/-- `getLast?` commutes with `map`. -/
theorem getLast?_map (f : α → β) : ∀ (l : List α),
    (l.map f).getLast? = (l.getLast?).map f := by
  intro l
  induction l with
  | nil => simp
  | cons a l ih =>
    cases l with
    | nil => simp
    | cons b t =>
      rw [List.map_cons, List.map_cons, List.getLast?_cons_cons,
        List.getLast?_cons_cons, ← List.map_cons]
      exact ih

/-- The last chunk renders the last group (space-free if it is the only
group, space-led otherwise). -/
theorem renderGroups_getLast? (gs : List (List GoStr)) (c : GoStr)
    (hc : (renderGroups gs).getLast? = some c) :
    ∃ g, gs.getLast? = some g ∧ (c = joinWords g ∨ c = ' ' :: joinWords g) := by
  cases gs with
  | nil => simp [renderGroups] at hc
  | cons g gs =>
    cases gs with
    | nil =>
      simp [renderGroups, renderTail] at hc
      exact ⟨g, by simp, Or.inl hc.symm⟩
    | cons h t =>
      rw [List.getLast?_cons_cons]
      have : (renderGroups (g :: h :: t)).getLast? = (renderTail (h :: t)).getLast? := by
        show (joinWords g :: renderTail (h :: t)).getLast? = _
        have : renderTail (h :: t) = (' ' :: joinWords h) :: renderTail t := by
          simp [renderTail]
        rw [this, List.getLast?_cons_cons, ← this]
      rw [this] at hc
      unfold renderTail at hc
      rw [getLast?_map] at hc
      rcases ho : (h :: t).getLast? with _ | g'
      · rw [ho] at hc; simp at hc
      · rw [ho] at hc
        simp at hc
        exact ⟨g', rfl, Or.inr hc.symm⟩

/-- Flattening the space-led renderings gives the space-led rendering of
the concatenated words. -/
theorem renderTail_flatten (gs : List (List GoStr)) (hne : ∀ g ∈ gs, g ≠ []) :
    (renderTail gs).flatten = tailRender gs.flatten := by
  induction gs with
  | nil => simp [renderTail, tailRender]
  | cons g gs ih =>
    have hg : g ≠ [] := hne g (List.mem_cons_self _ _)
    have hgs : ∀ h ∈ gs, h ≠ [] := fun h hh => hne h (List.mem_cons_of_mem _ hh)
    show ((' ' :: joinWords g) :: renderTail gs).flatten = tailRender (g ++ gs.flatten)
    rw [List.flatten_cons, ih hgs, tailRender_append, tailRender_ne_nil g hg]

/-- Concatenating all rendered chunks yields all words joined by single
spaces: each chunk after the first carries its separator as a leading
space. -/
theorem renderGroups_flatten (gs : List (List GoStr)) (hne : ∀ g ∈ gs, g ≠ []) :
    (renderGroups gs).flatten = joinWords gs.flatten := by
  cases gs with
  | nil => simp [renderGroups, joinWords]
  | cons g gs =>
    have hg : g ≠ [] := hne g (List.mem_cons_self _ _)
    have hgs : ∀ h ∈ gs, h ≠ [] := fun h hh => hne h (List.mem_cons_of_mem _ hh)
    show (joinWords g :: renderTail gs).flatten = joinWords (g ++ gs.flatten)
    rw [List.flatten_cons, renderTail_flatten gs hgs, joinWords_append g _ hg]

/-- Word counts of rendered groups whose words are non-empty and
whitespace-free. -/
theorem countWords_render (g : List GoStr)
    (h : ∀ u ∈ g, u ≠ [] ∧ ∀ c ∈ u, isSpace c = false) :
    countWords (joinWords g) = g.length ∧
    countWords (' ' :: joinWords g) = g.length := by
  constructor
  · unfold countWords
    rw [fields_joinWords h]
  · unfold countWords
    rw [fields_space_cons (by decide), fields_joinWords h]

/-- An element found by `getElem?` is a member. -/
theorem mem_of_getElem?' : ∀ (l : List α) (i : Nat) (a : α),
    l[i]? = some a → a ∈ l := by
  intro l
  induction l with
  | nil => intro i a h; simp at h
  | cons x xs ih =>
    intro i a h
    cases i with
    | zero => simp at h; subst h; exact List.mem_cons_self _ _
    | succ n =>
      simp only [List.getElem?_cons_succ] at h
      exact List.mem_cons_of_mem _ (ih n a h)

/-- An element found by `getLast?` is a member. -/
theorem mem_of_getLast?' : ∀ (l : List α) (a : α),
    l.getLast? = some a → a ∈ l := by
  intro l
  induction l with
  | nil => intro a h; simp at h
  | cons x xs ih =>
    intro a h
    cases xs with
    | nil => simp at h; subst h; exact List.mem_cons_self _ _
    | cons y ys =>
      rw [List.getLast?_cons_cons] at h
      exact List.mem_cons_of_mem _ (ih a h)

/-- The chunk-size bound for `splitTextW` at any positive word budget:
all chunks but the last count exactly `mw` words, the last between 1 and
`mw`. -/
theorem splitTextW_sizes (mw : Nat) (text : GoStr) (hmw : 1 ≤ mw) :
    (∀ i c, i + 1 < (splitTextW mw text).length →
      (splitTextW mw text)[i]? = some c → countWords c = mw) ∧
    (∀ c, (splitTextW mw text).getLast? = some c →
      1 ≤ countWords c ∧ countWords c ≤ mw) := by
  have hgw : ∀ g ∈ chunkCont mw [] (fields text),
      ∀ u ∈ g, u ≠ [] ∧ ∀ ch ∈ u, isSpace ch = false := by
    intro g hg u hu
    rcases chunkCont_mem_subset mw (fields text) [] g hg u hu with h | h
    · simp at h
    · exact fields_ok u h
  constructor
  · intro i c hlen hget
    rw [splitTextW_eq] at hlen hget
    rw [renderGroups_getElem?] at hget
    rcases hq : (chunkCont mw [] (fields text))[i]? with _ | g
    · rw [hq] at hget; simp at hget
    · rw [hq] at hget
      rw [Option.map_some'] at hget
      injection hget with hget
      have hgm : g ∈ chunkCont mw [] (fields text) := mem_of_getElem?' _ i g hq
      have hcw := countWords_render g (hgw g hgm)
      have hsz : g.length = mw := by
        refine chunkCont_sizes_init mw (fields text) [] (by simp; omega) i g ?_ hq
        rw [renderGroups_length] at hlen
        exact hlen
      by_cases hi : i = 0
      · rw [if_pos hi] at hget
        rw [← hget, hcw.1, hsz]
      · rw [if_neg hi] at hget
        rw [← hget, hcw.2, hsz]
  · intro c hlast
    rw [splitTextW_eq] at hlast
    obtain ⟨g, hg, hc⟩ := renderGroups_getLast? _ c hlast
    have hgm : g ∈ chunkCont mw [] (fields text) := mem_of_getLast?' _ g hg
    have hcw := countWords_render g (hgw g hgm)
    have hsz := chunkCont_sizes_last mw (fields text) [] (by simp; omega) g hg
    rcases hc with hc | hc
    · rw [hc, hcw.1]; exact hsz
    · rw [hc, hcw.2]; exact hsz

/-- With word budget 0 (absent model) every word is flushed immediately:
one group per word. -/
theorem chunkCont_zero_len : ∀ (ws : List GoStr),
    (chunkCont 0 [] ws).length = ws.length := by
  intro ws
  induction ws with
  | nil => simp [chunkCont]
  | cons w ws ih =>
    show (chunkCont 0 [] (w :: ws)).length = ws.length + 1
    rw [show chunkCont 0 [] (w :: ws) = ([] ++ [w]) :: chunkCont 0 [] ws from
      by simp only [chunkCont, if_pos (by omega : ([] : List GoStr).length + 1 ≥ 0)]]
    simp [ih]

/-- The number of chunks equals the number of word groups. -/
theorem splitTextW_length (mw : Nat) (text : GoStr) :
    (splitTextW mw text).length = (chunkCont mw [] (fields text)).length := by
  rw [splitTextW_eq, renderGroups_length]

/-! ### Claim C1 -/

/-- C1 as stated is false: with the spec's own scenario budget of 4,
joining the chunks of the nine-word fox transcript with single spaces does
not reproduce the whitespace-normalized word sequence, because every chunk
after the first already begins with a leading space. -/
theorem C1_join_single_spaces_cex :
    joinWords (splitTextW 4 foxText) ≠ joinWords (fields foxText) := by
  decide

/-- C1 (corrected): for every input text and every word budget,
concatenating the chunks produced by `splitText` directly — without
inserting separators — reproduces the whitespace-normalized original word
sequence (the input's words joined by single spaces); each chunk after the
first carries the separating space as its first character. -/
theorem C1_concat_roundtrip (mw : Nat) (text : GoStr) :
    (splitTextW mw text).flatten = joinWords (fields text) := by
  rw [splitTextW_eq, renderGroups_flatten _ (chunkCont_ne_nil mw (fields text) []),
    chunkCont_flatten]
  simp

/-! ### Claim C2 -/

/-- C2 as stated is false: chunking the nine-word fox transcript with word
budget 4 does not yield the three chunk strings claimed (the second and
third actually begin with a space). -/
theorem C2_chunk_literals_cex :
    splitTextW 4 foxText ≠
      ["the quick brown fox".toList, "jumps over the lazy".toList, "dog".toList] := by
  decide

/-- C2 (corrected): the fox transcript at budget 4 yields the chunks
"the quick brown fox", " jumps over the lazy", " dog" (the latter two with
a leading space); running the chunk loop of `Transcribe` over them with a
stub adapter that echoes each chunk's user prompt as one streamed chunk
plus a done-chunk invokes the sink exactly three times with text and three
times with done=true, interleaved text-then-done per chunk, and returns no
error. -/
theorem C2_end_to_end :
    splitTextW 4 foxText =
      ["the quick brown fox".toList, " jumps over the lazy".toList, " dog".toList] ∧
    (transcribeChunks "stub-model" stubEchoAdapter nilSink (splitTextW 4 foxText)).sinkCalls =
      [(userPromptFmt "the quick brown fox".toList, false), ([], true),
       (userPromptFmt " jumps over the lazy".toList, false), ([], true),
       (userPromptFmt " dog".toList, false), ([], true)] ∧
    (transcribeChunks "stub-model" stubEchoAdapter nilSink (splitTextW 4 foxText)).result =
      none := by
  refine ⟨by decide, ?_, ?_⟩ <;> rfl

/-! ### Claim C7 -/

/-- C7: for every model in either revision's token-limit table and every
input text, every chunk except possibly the last contains exactly
`floor(maxTokens(model) * 0.75)` words, and the last contains between 1
and that many. -/
theorem C7_chunk_size_bound (model : LLMModel) (text : GoStr) :
    (model ∈ modelKeys_v1 → chunkBound modelTokenLimits_v1 model text) ∧
    (model ∈ modelKeys_v2 → chunkBound modelTokenLimits_v2 model text) := by
  constructor
  · intro hm
    have h1 : 1 ≤ calcWordsFromTokens (modelTokenLimits_v1 model) := by
      have hall : ∀ m ∈ modelKeys_v1, 1 ≤ calcWordsFromTokens (modelTokenLimits_v1 m) := by
        decide
      exact hall model hm
    exact splitTextW_sizes _ text h1
  · intro hm
    have h1 : 1 ≤ calcWordsFromTokens (modelTokenLimits_v2 model) := by
      have hall : ∀ m ∈ modelKeys_v2, 1 ≤ calcWordsFromTokens (modelTokenLimits_v2 m) := by
        decide
      exact hall model hm
    exact splitTextW_sizes _ text h1

/-- Witness for C7 at a concrete model and text. -/
theorem C7_chunk_size_bound_witness :
    "gpt-4o" ∈ modelKeys_v1 ∧ chunkBound modelTokenLimits_v1 "gpt-4o" ("a b".toList) :=
  ⟨by decide, (C7_chunk_size_bound "gpt-4o" ("a b".toList)).1 (by decide)⟩

/-! ### Claim C9 -/

/-- C9: a model absent from the token-limit table gets word budget
`calcWordsFromTokens(0) = 0`, and `splitText` on a non-empty input then
flushes after every word, producing exactly one chunk per word. -/
theorem C9_absent_model (model : LLMModel) (text : GoStr)
    (hm : model ∉ modelKeys_v1) (htext : text ≠ []) :
    calcWordsFromTokens (modelTokenLimits_v1 model) = 0 ∧
    (splitText modelTokenLimits_v1 model text).length = (fields text).length := by
  have hlim : modelTokenLimits_v1 model = 0 := by
    have h1 : ¬ model = "gpt-4o" := fun he => hm (by rw [he]; decide)
    have h2 : ¬ model = "gpt-4o-mini" := fun he => hm (by rw [he]; decide)
    have h3 : ¬ model = "claude-3-5-sonnet-20241022" := fun he => hm (by rw [he]; decide)
    have h4 : ¬ model = "claude-3-5-haiku-20241022" := fun he => hm (by rw [he]; decide)
    have h5 : ¬ model = "llama-3.3-70b-versatile" := fun he => hm (by rw [he]; decide)
    have h6 : ¬ model = "llama-3.1-8b-instant" := fun he => hm (by rw [he]; decide)
    have h7 : ¬ model = "gemini-2.0-flash" := fun he => hm (by rw [he]; decide)
    simp [modelTokenLimits_v1, h1, h2, h3, h4, h5, h6, h7]
  constructor
  · rw [hlim]
    decide
  · show (splitTextW (calcWordsFromTokens (modelTokenLimits_v1 model)) text).length = _
    rw [hlim]
    show (splitTextW 0 text).length = _
    rw [splitTextW_length, chunkCont_zero_len]

/-- Witness for C9 at a concrete absent model and non-empty text. -/
theorem C9_absent_model_witness :
    ("model-x" ∉ modelKeys_v1 ∧ ("a b".toList : GoStr) ≠ []) ∧
    (calcWordsFromTokens (modelTokenLimits_v1 "model-x") = 0 ∧
     (splitText modelTokenLimits_v1 "model-x" ("a b".toList)).length =
       (fields "a b".toList).length) :=
  ⟨⟨by decide, by decide⟩,
   C9_absent_model "model-x" ("a b".toList) (by decide) (by decide)⟩

/-! ### Claim C3 -/

/-- Every sequence starts with itself. -/
theorem startsWith_self : ∀ (s : GoStr), startsWith s s = true := by
  intro s
  induction s with
  | nil => rfl
  | cons c cs ih => simp [startsWith, ih]

/-- Every sequence contains itself. -/
theorem containsSeq_self : ∀ (pat : GoStr), containsSeq pat pat = true := by
  intro pat
  cases pat with
  | nil => rfl
  | cons c cs => simp [containsSeq, startsWith_self]

/-- Containment is preserved by prepending. -/
theorem containsSeq_append (pat a rest : GoStr) (h : containsSeq pat rest = true) :
    containsSeq pat (a ++ rest) = true := by
  induction a with
  | nil => simpa using h
  | cons x a ih => simp [containsSeq, ih]

/-- A sequence contains its own suffix. -/
theorem containsSeq_suffix (pat a : GoStr) : containsSeq pat (a ++ pat) = true :=
  containsSeq_append pat a pat (containsSeq_self pat)

/-- C3 as stated is false for the streaming orchestrator: with a transcript
chunking into two chunks, the request issued for the second chunk does not
contain the first chunk's raw text anywhere in its prompt. -/
theorem C3_no_context_cex :
    (transcribe modelTokenLimits_v1 "" stubEchoAdapter nilSink "zq vq".toList).requests =
      [mkChunkRequest "" "zq".toList, mkChunkRequest "" " vq".toList] ∧
    containsSeq "zq".toList (mkChunkRequest "" " vq".toList).userPrompt = false ∧
    containsSeq "zq".toList (mkChunkRequest "" " vq".toList).systemPrompt = false := by
  refine ⟨rfl, ?_, ?_⟩ <;> decide

/-- C3 (corrected): the streaming orchestrator embeds no context at all —
every request it issues is exactly the fixed instruction template with
only that chunk's own text substituted; it is the legacy blocking pipeline
(`Command.RunE` with `callChatGPTAPIWithBackoff`) that embeds the first
chunk's raw text in the system message of every call, including the first. -/
theorem C3_context_amended :
    (∀ (model : LLMModel) (cs : CompletionRequest → List CompletionChunk × Option GoErr)
       (sink : GoStr → Bool → Option GoErr) (chunks : List GoStr) (r : CompletionRequest),
       r ∈ (transcribeChunks model cs sink chunks).requests →
       ∃ c ∈ chunks, r = mkChunkRequest model c) ∧
    (∀ (t c0 : GoStr) (rest : List GoStr) (reqs : List (List LegacyChatMessage)),
       chunkTranscript t = c0 :: rest → runELegacyMessages t = some reqs →
       ∀ msgs ∈ reqs, ∃ m ∈ msgs, m.role = "system" ∧ containsSeq c0 m.content = true) := by
  constructor
  · intro model cs sink chunks
    induction chunks with
    | nil => intro r hr; simp [transcribeChunks] at hr
    | cons chunk rest ih =>
      intro r hr
      simp only [transcribeChunks] at hr
      rcases h2 : (feedSink sink (cs (mkChunkRequest model chunk)).1).2 with _ | e
      · rw [h2] at hr
        rcases h3 : (cs (mkChunkRequest model chunk)).2 with _ | e
        · rw [h3] at hr
          simp only [List.mem_cons] at hr
          rcases hr with hr | hr
          · exact ⟨chunk, List.mem_cons_self _ _, hr⟩
          · obtain ⟨c, hc, hrc⟩ := ih r hr
            exact ⟨c, List.mem_cons_of_mem _ hc, hrc⟩
        · rw [h3] at hr
          simp only [List.mem_singleton] at hr
          exact ⟨chunk, List.mem_cons_self _ _, hr⟩
      · rw [h2] at hr
        simp only [List.mem_singleton] at hr
        exact ⟨chunk, List.mem_cons_self _ _, hr⟩
  · intro t c0 rest reqs hchunks hrun msgs hmsgs
    unfold runELegacyMessages at hrun
    rw [hchunks] at hrun
    have hreqs : reqs = (c0 :: rest).map (buildLegacyMessages c0) := by
      injection hrun with h
      exact h.symm
    rw [hreqs] at hmsgs
    obtain ⟨c, _, hmc⟩ := List.mem_map.mp hmsgs
    refine ⟨⟨"system", legacySystemPre.toList ++ c0⟩, ?_, rfl, containsSeq_suffix _ _⟩
    rw [← hmc]
    exact List.mem_cons_self _ _

/-- Witness for C3 (corrected) at concrete inputs. -/
theorem C3_context_amended_witness :
    (∃ c ∈ ["zq".toList], mkChunkRequest "m" "zq".toList = mkChunkRequest "m" c) ∧
    (∃ m ∈ buildLegacyMessages "hello world ".toList "hello world ".toList,
       m.role = "system" ∧ containsSeq "hello world ".toList m.content = true) := by
  constructor
  · refine C3_context_amended.1 "m" stubEchoAdapter nilSink ["zq".toList]
      (mkChunkRequest "m" "zq".toList) ?_
    rw [show (transcribeChunks "m" stubEchoAdapter nilSink ["zq".toList]).requests =
      [mkChunkRequest "m" "zq".toList] from rfl]
    exact List.mem_singleton.mpr rfl
  · refine C3_context_amended.2 "hello world".toList "hello world ".toList []
      [buildLegacyMessages "hello world ".toList "hello world ".toList] ?_ ?_
      (buildLegacyMessages "hello world ".toList "hello world ".toList) ?_
    · decide
    · decide
    · exact List.mem_singleton.mpr rfl

/-! ### Claim C10 -/

/-- C10: if the sink errors on some received chunk, `Transcribe` returns
at once with an error wrapping the sink's error ("callback error: ..."),
and no `CompleteStream` call is issued for any later transcript chunk. -/
theorem C10_sink_error_aborts (model : LLMModel)
    (cs : CompletionRequest → List CompletionChunk × Option GoErr)
    (sink : GoStr → Bool → Option GoErr) (pre : List GoStr) (c : GoStr)
    (rest : List GoStr) (e : GoErr)
    (hpre : ∀ ch ∈ pre, (feedSink sink (cs (mkChunkRequest model ch)).1).2 = none ∧
      (cs (mkChunkRequest model ch)).2 = none)
    (hc : (feedSink sink (cs (mkChunkRequest model c)).1).2 = some e) :
    (transcribeChunks model cs sink (pre ++ c :: rest)).result =
      some (.wrap "callback error" e) ∧
    (transcribeChunks model cs sink (pre ++ c :: rest)).requests =
      (pre ++ [c]).map (mkChunkRequest model) := by
  induction pre with
  | nil =>
    simp only [List.nil_append, transcribeChunks]
    rw [hc]
    simp
  | cons p0 pre ih =>
    have h0 := hpre p0 (List.mem_cons_self _ _)
    have hpre' : ∀ ch ∈ pre, (feedSink sink (cs (mkChunkRequest model ch)).1).2 = none ∧
        (cs (mkChunkRequest model ch)).2 = none :=
      fun ch hch => hpre ch (List.mem_cons_of_mem _ hch)
    have hrec := ih hpre'
    simp only [List.cons_append, transcribeChunks]
    rw [h0.1, h0.2]
    simp only [List.map_cons, List.cons_append]
    exact ⟨hrec.1, congrArg (List.cons (mkChunkRequest model p0)) hrec.2⟩

/-- Witness for C10: a sink that rejects the first chunk aborts the run
before the second transcript chunk's stream is opened. -/
theorem C10_sink_error_aborts_witness :
    ((∀ ch ∈ ([] : List GoStr),
        (feedSink (fun _ _ => some (GoErr.other "boom"))
          (stubEchoAdapter (mkChunkRequest "m" ch)).1).2 = none ∧
        (stubEchoAdapter (mkChunkRequest "m" ch)).2 = none) ∧
     (feedSink (fun _ _ => some (GoErr.other "boom"))
        (stubEchoAdapter (mkChunkRequest "m" "x".toList)).1).2 =
       some (GoErr.other "boom")) ∧
    (transcribeChunks "m" stubEchoAdapter (fun _ _ => some (GoErr.other "boom"))
        ([] ++ "x".toList :: ["y".toList])).result =
      some (.wrap "callback error" (.other "boom")) ∧
    (transcribeChunks "m" stubEchoAdapter (fun _ _ => some (GoErr.other "boom"))
        ([] ++ "x".toList :: ["y".toList])).requests =
      ([] ++ ["x".toList]).map (mkChunkRequest "m") := by
  refine ⟨⟨fun ch hch => absurd hch (List.not_mem_nil ch), rfl⟩, ?_⟩
  exact C10_sink_error_aborts "m" stubEchoAdapter (fun _ _ => some (GoErr.other "boom"))
    [] "x".toList ["y".toList] (GoErr.other "boom")
    (fun ch hch => absurd hch (List.not_mem_nil ch)) rfl

/-! ### Claim C8 -/

/-- C8: for every provider identifier outside
{openai, claude, groq, gemini, bedrock}, both revisions of the facade
constructor `NewLLMClient` return the unsupported-provider error and no
client. -/
theorem C8_provider_dispatch (provider : LLMProvider) (apiKey : String)
    (newBedrock : Except GoErr LLMClient) (cfg : Config)
    (h : provider ∉ (["openai", "claude", "groq", "gemini", "bedrock"] : List LLMProvider)) :
    NewLLMClient_v1 provider apiKey =
      .error (.other ("unsupported provider: " ++ provider)) ∧
    NewLLMClient_v2 newBedrock provider cfg =
      .error (.other ("unsupported provider: " ++ provider)) := by
  have h1 : ¬ provider = "openai" := fun he => h (by rw [he]; decide)
  have h2 : ¬ provider = "claude" := fun he => h (by rw [he]; decide)
  have h3 : ¬ provider = "groq" := fun he => h (by rw [he]; decide)
  have h4 : ¬ provider = "gemini" := fun he => h (by rw [he]; decide)
  have h5 : ¬ provider = "bedrock" := fun he => h (by rw [he]; decide)
  constructor
  · simp [NewLLMClient_v1, h1, h2, h3, h4]
  · simp [NewLLMClient_v2, h1, h2, h3, h5]

/-- Witness for C8 at the provider "mistral". -/
theorem C8_provider_dispatch_witness :
    NewLLMClient_v1 "mistral" "key" =
      .error (.other ("unsupported provider: " ++ "mistral")) ∧
    NewLLMClient_v2 (.ok .bedrockClient) "mistral" ⟨"", "", ""⟩ =
      .error (.other ("unsupported provider: " ++ "mistral")) :=
  C8_provider_dispatch "mistral" "key" (.ok .bedrockClient) ⟨"", "", ""⟩ (by decide)

/-! ### Claim C5 -/

/-- C5 as stated is false: an explicit backend overload signal (HTTP 503,
"engine currently overloaded") is classified permanent, so a call that
fails once with it and then would succeed instead aborts on the first
attempt with the error. -/
theorem C5_overloaded_cex :
    isTransient overloadedErr = false ∧
    backoffRetrySim (overloadedThenOk (⟨"ok".toList, "openai"⟩ : CompletionResponse)) 0 10 =
      (.error overloadedErr, 1) := by
  constructor <;> rfl

/-- C5 (corrected): the retry wrapper treats an error as transient exactly
when it is (or wraps) an `*openai.APIError` with HTTP status 429; any
other error — including an explicit overload signal that is not a 429 —
aborts on the first attempt without retrying.  A call failing with 429
twice and then succeeding returns the success after three attempts with no
error. -/
theorem C5_retry_amended :
    (∀ (status : Nat) (msg : String),
      isTransient (.apiError status msg) = (status == 429)) ∧
    (∀ (msg : String), isTransient (.other msg) = false) ∧
    (∀ (msg : String) (e : GoErr), isTransient (.wrap msg e) = isTransient e) ∧
    (∀ (r : CompletionResponse) (fuel : Nat),
      backoffRetrySim (rateLimitedTwice r) 0 (fuel + 2) = (.ok r, 3)) ∧
    (∀ (e : GoErr) (fuel : Nat), isTransient e = false →
      ∀ (op : Nat → Except GoErr CompletionResponse), op 0 = .error e →
      backoffRetrySim op 0 fuel = (.error e, 1)) := by
  refine ⟨fun status msg => rfl, fun msg => rfl, fun msg e => rfl, ?_, ?_⟩
  · intro r fuel
    cases fuel <;> rfl
  · intro e fuel he op hop
    cases fuel with
    | zero =>
      simp only [backoffRetrySim]
      rw [hop]
    | succ n =>
      simp only [backoffRetrySim]
      rw [hop]
      simp [he]

/-- Witness for C5 (corrected) at a concrete permanent error. -/
theorem C5_retry_amended_witness :
    isTransient (GoErr.other "invalid api key") = false ∧
    backoffRetrySim
        (fun _ => (.error (GoErr.other "invalid api key") : Except GoErr CompletionResponse))
        0 5 = (.error (GoErr.other "invalid api key"), 1) :=
  ⟨rfl, C5_retry_amended.2.2.2.2 (GoErr.other "invalid api key") 5 rfl _ rfl⟩

/-! ### Claim C4 -/

/-- Chunks produced by a delta-extracting `filterMap` are never done. -/
theorem filterMap_all_not_done {α : Type} (l : List α)
    (f : α → Option CompletionChunk)
    (h : ∀ a c, f a = some c → c.done = false) :
    (l.filterMap f).all (fun c => !c.done) = true := by
  rw [List.all_eq_true]
  intro c hc
  obtain ⟨a, _, hfa⟩ := List.mem_filterMap.mp hc
  simp [h a c hfa]

/-- The last element of a list ending in `a` is `a`. -/
theorem getLast?_append_single : ∀ (l : List α) (a : α),
    (l ++ [a]).getLast? = some a := by
  intro l a
  induction l with
  | nil => rfl
  | cons x xs ih =>
    cases xs with
    | nil => rfl
    | cons y ys =>
      rw [List.cons_append, List.cons_append, List.getLast?_cons_cons]
      simpa using ih

/-- A list of not-done chunks followed by the done chunk satisfies the
success side of the terminal invariant. -/
theorem append_done_invariant (l : List CompletionChunk)
    (h : l.all (fun c => !c.done) = true) :
    streamInvariant (l ++ [doneChunk], none) := by
  unfold streamInvariant
  refine ⟨?_, getLast?_append_single l doneChunk, rfl⟩
  rw [List.filter_append]
  have hl : l.filter (fun c => c.done) = [] := by
    rw [List.filter_eq_nil_iff]
    intro c hc
    have := List.all_eq_true.mp h c hc
    simpa using this
  rw [hl]
  rfl

/-- The invariant holds for the Bedrock event loop on every event list. -/
theorem bedrockEventLoop_invariant : ∀ (evs : List BedrockStreamEvent),
    streamInvariant (bedrockEventLoop evs) := by
  intro evs
  induction evs with
  | nil =>
    unfold streamInvariant bedrockEventLoop
    exact ⟨rfl, rfl, rfl⟩
  | cons ev rest ih =>
    cases ev with
    | memberChunk dec =>
      cases dec with
      | none =>
        unfold streamInvariant bedrockEventLoop
        rfl
      | some r =>
        simp only [bedrockEventLoop]
        by_cases hr : r.type = "content_block_delta" ∧ r.deltaText ≠ []
        · rw [if_pos hr]
          unfold streamInvariant at ih ⊢
          rcases h2 : (bedrockEventLoop rest).2 with _ | e
          · rw [h2] at ih
            obtain ⟨hfil, hlast, htext⟩ := ih
            refine ⟨?_, ?_, rfl⟩
            · show List.filter _ (_ :: (bedrockEventLoop rest).1) = _
              rw [List.filter_cons_of_neg (by simp), hfil]
            · show (_ :: (bedrockEventLoop rest).1).getLast? = _
              have hne : (bedrockEventLoop rest).1 ≠ [] := by
                intro hnil
                rw [hnil] at hfil
                simp at hfil
              cases hq : (bedrockEventLoop rest).1 with
              | nil => exact absurd hq hne
              | cons x xs =>
                rw [List.getLast?_cons_cons, ← hq, hlast]
          · rw [h2] at ih
            show ((⟨r.deltaText, "bedrock", false⟩ : CompletionChunk) ::
              (bedrockEventLoop rest).1).all _ = true
            rw [List.all_cons]
            simp only [ih]
            rfl
        · rw [if_neg hr]
          exact ih
    | unknownUnion tag =>
      unfold streamInvariant bedrockEventLoop
      rfl
    | otherEvent =>
      unfold streamInvariant bedrockEventLoop
      rfl

/-- C4: for every adapter's `CompleteStream`, a stream that completes
without error emits exactly one done-chunk, last and with empty text; a
stream that fails surfaces exactly one error and emits no done-chunk. -/
theorem C4_stream_terminal :
    (∀ (events : List OpenAIStreamEvent) (sErr : Option GoErr),
      streamInvariant (OpenAIClient_CompleteStream events sErr)) ∧
    (∀ (events : List ClaudeStreamEvent) (sErr : Option GoErr),
      streamInvariant (ClaudeClient_CompleteStream events sErr)) ∧
    (∀ (steps : List GeminiStreamResp) (iErr : Option GoErr),
      streamInvariant (GeminiClient_CompleteStream steps iErr)) ∧
    (∀ (uErr : Option GoErr) (chunks : List GroqStreamChunk),
      streamInvariant (GroqClient_CompleteStream uErr chunks)) ∧
    (∀ (iErr : Option GoErr) (events : List BedrockStreamEvent),
      streamInvariant (BedrockClient_CompleteStream iErr events)) := by
  refine ⟨?_, ?_, ?_, ?_, ?_⟩
  · intro events sErr
    cases sErr with
    | none =>
      exact append_done_invariant _ (filterMap_all_not_done events _ (by
        intro a c hfa
        cases hch : a.choices with
        | nil => rw [hch] at hfa; simp at hfa
        | cons d ds =>
          rw [hch] at hfa
          simp at hfa
          rw [← hfa]))
    | some e =>
      show streamInvariant (_, some e)
      unfold streamInvariant
      exact filterMap_all_not_done events _ (by
        intro a c hfa
        cases hch : a.choices with
        | nil => rw [hch] at hfa; simp at hfa
        | cons d ds =>
          rw [hch] at hfa
          simp at hfa
          rw [← hfa])
  · intro events sErr
    have hemit : ∀ (ev : ClaudeStreamEvent) (c : CompletionChunk),
        (match ev.delta with
         | some t => if t ≠ [] then some (⟨t, "claude", false⟩ : CompletionChunk) else none
         | none => none) = some c → c.done = false := by
      intro ev c hfa
      cases hd : ev.delta with
      | none => rw [hd] at hfa; simp at hfa
      | some t =>
        rw [hd] at hfa
        simp only [ne_eq, ite_not] at hfa
        by_cases ht : t = []
        · rw [if_pos ht] at hfa; simp at hfa
        · rw [if_neg ht] at hfa
          injection hfa with hfa
          rw [← hfa]
    cases sErr with
    | none => exact append_done_invariant _ (filterMap_all_not_done events _ hemit)
    | some e =>
      show streamInvariant (_, some e)
      unfold streamInvariant
      exact filterMap_all_not_done events _ hemit
  · intro steps iErr
    have hemit : ∀ (r : GeminiStreamResp) (c : CompletionChunk),
        (match r.candidates with
         | (p :: _) :: _ => some (⟨p, "gemini", false⟩ : CompletionChunk)
         | _ => none) = some c → c.done = false := by
      intro r c hfa
      rcases hc : r.candidates with _ | ⟨_ | ⟨p, ps⟩, cands⟩ <;> rw [hc] at hfa <;>
        simp at hfa
      rw [← hfa]
    cases iErr with
    | none => exact append_done_invariant _ (filterMap_all_not_done steps _ hemit)
    | some e =>
      show streamInvariant (_, some (.wrap "stream error" e))
      unfold streamInvariant
      exact filterMap_all_not_done steps _ hemit
  · intro uErr chunks
    cases uErr with
    | none =>
      exact append_done_invariant _ (filterMap_all_not_done chunks _ (by
        intro a c hfa
        cases hch : a.choices with
        | nil => rw [hch] at hfa; simp at hfa
        | cons d ds =>
          rw [hch] at hfa
          simp at hfa
          rw [← hfa]))
    | some e =>
      show streamInvariant ([], some e)
      unfold streamInvariant
      rfl
  · intro iErr events
    cases iErr with
    | none => exact bedrockEventLoop_invariant events
    | some e =>
      show streamInvariant ([], some (.wrap "failed to invoke model" e))
      unfold streamInvariant
      rfl

/-- Witness for C4 at concrete streams. -/
theorem C4_stream_terminal_witness :
    streamInvariant (OpenAIClient_CompleteStream [⟨[['h']]⟩] none) ∧
    streamInvariant (BedrockClient_CompleteStream none
      [.memberChunk (some ⟨"content_block_delta", ['h']⟩), .otherEvent]) :=
  ⟨C4_stream_terminal.1 [⟨[['h']]⟩] none,
   C4_stream_terminal.2.2.2.2 none
     [.memberChunk (some ⟨"content_block_delta", ['h']⟩), .otherEvent]⟩

/-! ### Claim C6 -/

/-- C6 on the code as written: when the backend responds successfully with
zero choices/content blocks, the OpenAI and Claude adapters do not return
an error value — they index into the empty result and panic; only the
Gemini adapter takes the error branch ("no content in response"), both for
zero candidates and for zero parts in the first candidate. -/
theorem C6_empty_response_bug :
    OpenAIClient_Complete (.ok ⟨[]⟩) = .panicked "runtime error: index out of range" ∧
    ClaudeClient_Complete (.ok ⟨[]⟩) = .panicked "runtime error: index out of range" ∧
    GeminiClient_Complete (.ok ⟨[]⟩) = .err (.other "no content in response") ∧
    GeminiClient_Complete (.ok ⟨[[]]⟩) = .err (.other "no content in response") :=
  ⟨rfl, rfl, rfl, rfl⟩

